import Mathlib

/- Verification of the EEG feature-extraction engine (src/api/workers/extract_features.py).

   Numeric model: Python floats are modelled as exact rationals (ℝ where a natural
   logarithm is required); NumPy arrays as Lean lists or total index functions;
   presence tests on Python dictionaries as Option. NumPy's NaN propagation on
   empty-mean degenerate inputs is not modelled: a mean of an empty list is 0 here,
   and division by zero yields 0 (which coincides with np.nan_to_num coercions where
   the code applies them). -/

namespace EEGFeatures

/-- Matrices are total functions on natural indices; the algorithms below only read
and write entries under the dimension bound, everything else stays at its initial
value. -/
abbrev Mat : Type := ℕ → ℕ → ℚ

/-- Single-entry write, modelling a NumPy element assignment m[i, j] = v. -/
def matUpdate (M : Mat) (i j : ℕ) (v : ℚ) : Mat :=
  fun a b => if a = i ∧ b = j then v else M a b

/-- Zero matrix, modelling np.zeros((n, n)). -/
def zeroMat : Mat := fun _ _ => 0

/-- Trapezoidal rule np.trapz(y, x) over a list of (x, y) sample points
(extract_features.py line 154). -/
def trapzPairs : List (ℚ × ℚ) → ℚ
  | [] => 0
  | [_] => 0
  | p :: q :: rest => (q.1 - p.1) * (p.2 + q.2) / 2 + trapzPairs (q :: rest)

/-- Fine 8-band registry BANDS (lines 28-37), in order: delta, theta, alpha1, alpha2,
smr, beta2, hibeta, lowgamma. -/
def BANDS : List (ℚ × ℚ) :=
  [(1, 4), (4, 8), (8, 10), (10, 12), (12, 15), (15, 20), (20, 30), (30, 45)]

/-- Absolute band power of one channel: np.trapz of the PSD restricted to the mask
low ≤ f < high (lines 144 and 154). Selecting the same boolean mask on the freqs and
psd arrays is modelled by filtering the zipped pair list on the frequency. -/
def bandAbsolute (freqs psd : List ℚ) (low high : ℚ) : ℚ :=
  trapzPairs ((freqs.zip psd).filter (fun p => decide (low ≤ p.1 ∧ p.1 < high)))

/-- Per-channel total power: sum of the absolute powers over all 8 fine bands
(line 164). -/
def totalPower (freqs psd : List ℚ) : ℚ :=
  (BANDS.map (fun b => bandAbsolute freqs psd b.1 b.2)).sum

/-- Per-channel output of compute_band_power (lines 143-169): an (absolute, relative)
pair per band in registry order, with relative = absolute / total when total > 0 and
0 otherwise (line 168). -/
def channelBandPower (freqs psd : List ℚ) : List (ℚ × ℚ) :=
  (BANDS.map (fun b => bandAbsolute freqs psd b.1 b.2)).map
    (fun a => (a, if 0 < totalPower freqs psd then a / totalPower freqs psd else 0))

/-- compute_band_power over all channels (lines 139-169): one table per channel PSD. -/
def computeBandPower (freqs : List ℚ) (psds : List (List ℚ)) : List (List (ℚ × ℚ)) :=
  psds.map (channelBandPower freqs)

/-- Numerical constant 1e-10 used by the code both as the wPLI denominator floor
(line 460) and as the distance regularizer (line 609). -/
def eps10 : ℚ := 1 / 10000000000

/-- Imaginary part of z1 * conj(z2) for complex numbers modelled as (re, im) pairs
(lines 447-450). -/
def imagCross (z1 z2 : ℚ × ℚ) : ℚ := z1.2 * z2.1 - z1.1 * z2.2

/-- np.mean of a list (sum over length; 0 for the empty list, whose float NaN
semantics is outside the model). -/
def listMean (l : List ℚ) : ℚ := l.sum / (l.length : ℚ)

/-- np.clip(x, lo, hi). -/
def npClip (x lo hi : ℚ) : ℚ := min (max x lo) hi

/-- Model of _compute_wpli (lines 422-465), as a function of the analytic signals of the two
channels, each a list of epochs of complex-valued time samples: per-epoch time means
of the imaginary cross-spectrum and of its absolute value, epoch means, then the
guarded and clipped ratio. -/
def computeWpli (sig1 sig2 : List (List (ℚ × ℚ))) : ℚ :=
  let imagCrossEpochs := List.zipWith (fun e1 e2 => List.zipWith imagCross e1 e2) sig1 sig2
  let imagMeanPerEpoch := imagCrossEpochs.map listMean
  let imagAbsMeanPerEpoch := imagCrossEpochs.map (fun e => listMean (e.map (fun q => |q|)))
  let numerator := |listMean imagMeanPerEpoch|
  let denominator := listMean imagAbsMeanPerEpoch
  if denominator < eps10 then 0 else npClip (numerator / denominator) 0 1

/-- Connectivity-matrix construction of compute_connectivity (lines 502-512) for one
band: start from np.zeros and, for every pair i < j (the inner loop range(i+1, n) is
the elements of range(n) above i), write the pair's wPLI at (i, j) and (j, i). The
scipy band-pass filter and Hilbert transform are abstracted: the matrix is a function
of the per-channel analytic signals, and the stated properties hold for every value
of those signals, hence for the filtered ones. -/
def connMatrix (n : ℕ) (sigs : ℕ → List (List (ℚ × ℚ))) : Mat :=
  (List.range n).foldl
    (fun M i =>
      (List.range n).foldl
        (fun M j =>
          if i < j then
            let w := computeWpli (sigs i) (sigs j)
            matUpdate (matUpdate M i j w) j i w
          else M)
        M)
    zeroMat

/-- Distance initialization of _compute_global_efficiency (lines 608-610):
distance = 1 / (w + 1e-10) elementwise, then np.fill_diagonal(distance, 0). -/
def initDistance (M : Mat) : Mat :=
  fun i j => if i = j then 0 else 1 / (M i j + eps10)

/-- One in-place Floyd-Warshall relaxation (lines 617-618):
if d[i,k] + d[k,j] < d[i,j] then d[i,j] = d[i,k] + d[k,j]. -/
def fwUpdate (d : Mat) (k i j : ℕ) : Mat :=
  if d i k + d k j < d i j then matUpdate d i j (d i k + d k j) else d

/-- The triple Floyd-Warshall loop (lines 613-618), sequential in-place updates. -/
def floydWarshall (n : ℕ) (d0 : Mat) : Mat :=
  (List.range n).foldl
    (fun d k =>
      (List.range n).foldl
        (fun d i => (List.range n).foldl (fun d j => fwUpdate d k i j) d) d)
    d0

/-- Element-wise inverse of the distance matrix with zeroed diagonal (lines 621-624).
Division by zero yields 0 in ℚ, which coincides with np.nan_to_num coercing the inf
produced by 1/0 to 0. -/
def invDist (d : Mat) : Mat := fun i j => if i = j then 0 else 1 / d i j

/-- np.sum over the n × n block. -/
def sumMat (n : ℕ) (A : Mat) : ℚ :=
  ∑ i in Finset.range n, ∑ j in Finset.range n, A i j

/-- Model of _compute_global_efficiency (lines 590-628): regularized inverse weights, in-place
Floyd-Warshall, mean of the inverse shortest-path distances off the diagonal. -/
def globalEfficiency (n : ℕ) (M : Mat) : ℚ :=
  sumMat n (invDist (floydWarshall n (initDistance M))) / ((n * (n - 1) : ℕ) : ℚ)

/-- Concrete 2-channel connectivity-style matrix: zero diagonal, unit off-diagonal
entries (the wPLI value of a perfectly phase-lagged pair). -/
def onesOffDiag : Mat := fun i j => if i = j then 0 else 1

/-- Lower-bound invariant for distance matrices over the n × n block: nonnegative
everywhere, at least c off the diagonal. Floyd-Warshall relaxations preserve it. -/
def distLB (n : ℕ) (c : ℚ) (d : Mat) : Prop :=
  (∀ i j, i < n → j < n → 0 ≤ d i j) ∧ (∀ i j, i < n → j < n → i ≠ j → c ≤ d i j)

/-- The regularized distance matrix arising from onesOffDiag: 0 on the diagonal and
1 / (1 + 1e-10) off it. -/
def onesDist : Mat := fun i j => if i = j then 0 else 1 / (1 + eps10)

/-- Triples (frequency, original PSD value, 1/f-corrected residual) inside the closed
alpha window 8 ≤ f ≤ 12 (lines 266-269). The residual array is the output of the 1/f
regression and is taken as an input here, indexed like the full frequency axis; its
restriction to the window coincides with the code's positive-frequency masking because
the window contains only positive frequencies. -/
def alphaWindow (freqs psd residual : List ℚ) : List (ℚ × ℚ × ℚ) :=
  (freqs.zip (psd.zip residual)).filter (fun t => decide (8 ≤ t.1 ∧ t.1 ≤ 12))

/-- np.argmax over the residual component: the first triple attaining the maximal
residual (line 281); (0, 0, 0) on the empty list (unreached in use). -/
def argmaxTriple (l : List (ℚ × ℚ × ℚ)) : ℚ × ℚ × ℚ :=
  match l with
  | [] => (0, 0, 0)
  | t :: ts => ts.foldl (fun best x => if best.2.2 < x.2.2 then x else best) t

/-- Per-channel body of compute_alpha_peak (lines 241-297). A 1/f fit that raised a
numerical error (the try/except of lines 247 and 292-297) is modelled by the residual
being none. With a residual, the sentinel branch of lines 271-278 fires when the
window is empty or the residual is nonpositive throughout it; otherwise the peak
frequency and the original (non-residual) PSD value at the argmax index are reported
(lines 281-290). -/
def alphaPeakChannel (freqs psd : List ℚ) (residual : Option (List ℚ)) : ℚ × ℚ :=
  match residual with
  | none => (0, 0)
  | some res =>
    let win := alphaWindow freqs psd res
    if win.all (fun t => decide (t.2.2 ≤ 0)) then (0, 0)
    else
      let t := argmaxTriple win
      (t.1, t.2.1)

/-- compute_alpha_peak over the channel batch (lines 239-299): the per-channel loop
produces exactly one entry per channel and never aborts. -/
def computeAlphaPeak (chans : List (List ℚ × List ℚ × Option (List ℚ))) : List (ℚ × ℚ) :=
  chans.map (fun c => alphaPeakChannel c.1 c.2.1 c.2.2)

/-- Insertion step of an ascending insertion sort. -/
def insertSorted (x : ℚ) : List ℚ → List ℚ
  | [] => [x]
  | y :: ys => if x ≤ y then x :: y :: ys else y :: insertSorted x ys

/-- Ascending sort of a rational list (the sorting inside np.median). -/
def sortList (l : List ℚ) : List ℚ := l.foldr insertSorted []

/-- np.median (line 940): sort, take the middle element for odd length, the mean of
the two middle elements for even length. -/
def npMedian (l : List ℚ) : ℚ :=
  if l.length % 2 = 1 then (sortList l).getD (l.length / 2) 0
  else ((sortList l).getD (l.length / 2 - 1) 0 + (sortList l).getD (l.length / 2) 0) / 2

/-- Median-threshold binarization (line 941): symbol 1 exactly when x > median. -/
def binarize (l : List ℚ) : List Bool :=
  l.map (fun x => decide (npMedian l < x))

/-- Whether p is an initial run of s (helper for substring containment). -/
def leadsList (p s : List Bool) : Bool :=
  match p, s with
  | [], _ => true
  | _ :: _, [] => false
  | a :: ps, b :: ss => (a == b) && leadsList ps ss

/-- Python substring containment needle in haystack: p occurs contiguously in s
(the empty needle always occurs). -/
def occursIn (p s : List Bool) : Bool :=
  leadsList p s || (match s with | [] => false | _ :: t => occursIn p t)

/-- LZ76 parse loop of _lempel_ziv_complexity (lines 944-966): grow the window while
the current subsequence s[ind : ind+inc] occurs in the prefix s[0 : ind+inc-1]; on a
new pattern count it and restart the window; an unmatched trailing fragment counts
one final pattern. -/
def lz76Loop (s : List Bool) (ind inc compl : ℕ) : ℕ :=
  if _h : ind + inc ≤ s.length then
    if occursIn ((s.drop ind).take inc) (s.take (ind + inc - 1)) then
      lz76Loop s ind (inc + 1) compl
    else
      lz76Loop s (ind + inc) 1 (compl + 1)
  else if ind < s.length then compl + 1 else compl
termination_by s.length + 1 - (ind + inc)
decreasing_by
  all_goals omega

/-- LZ76 parse count of a binary sequence (lines 944-966), started as in the code
with ind = 0, inc = 1, complexity = 0. -/
def lz76 (b : List Bool) : ℕ := lz76Loop b 0 1 0

/-- Model of _lempel_ziv_complexity (lines 926-967): median binarization followed by the LZ76
parse count (the code returns the count as a float; the count itself is modelled). -/
def lempelZivComplexity (l : List ℚ) : ℕ := lz76 (binarize l)

/-- Per-pair asymmetry index of compute_asymmetry (lines 381-392): ln(right) - ln(left)
when both channels are present in the table (some) and both powers are positive,
0 in every other case. Powers are rationals like every other float in the model;
only the natural logarithm lives in ℝ. -/
noncomputable def asymIndex (leftPower rightPower : Option ℚ) : ℝ :=
  match leftPower, rightPower with
  | some l, some r =>
    if 0 < l ∧ 0 < r then Real.log (r : ℝ) - Real.log (l : ℝ) else 0
  | _, _ => 0

/-- ASYMMETRY_PAIRS (lines 51-55) as (name, left channel, right channel, band), with
the band resolved from the constant pair name exactly as lines 373-378 do: a name
containing alpha selects upper alpha (alpha2), a name containing theta selects theta. -/
def ASYMMETRY_PAIRS : List (String × String × String × String) :=
  [("frontal_alpha", "F3", "F4", "alpha2"),
   ("parietal_alpha", "P3", "P4", "alpha2"),
   ("frontal_theta", "F3", "F4", "theta")]

/-- compute_asymmetry (lines 354-394) over a band-power table channel → band → power,
where a channel absent from the table is none. -/
noncomputable def computeAsymmetry (bp : String → Option (String → ℚ)) : List (String × ℝ) :=
  ASYMMETRY_PAIRS.map (fun t =>
    (t.1, asymIndex ((bp t.2.1).map (fun row => row t.2.2.2))
                    ((bp t.2.2.1).map (fun row => row t.2.2.2))))

/-- Normalized cutoff computation of _bandpass_filter (lines 408-414): nyq = sfreq/2,
both cutoffs divided by nyq, then low clamped into [0.001, 0.99] and high set to
max(low + 0.01, min(high, 0.99)). The pair handed to the Butterworth design. -/
def bandpassNorms (low high sfreq : ℚ) : ℚ × ℚ :=
  let nyq := sfreq / 2
  let lowNorm := low / nyq
  let highNorm := high / nyq
  let lowClamped := max 0.001 (min lowNorm 0.99)
  let highClamped := max (lowClamped + 0.01) (min highNorm 0.99)
  (lowClamped, highClamped)

/-- Coarse 4-band connectivity registry CONNECTIVITY_BANDS (lines 58-63), in order:
delta, theta, alpha, beta. -/
def CONNECTIVITY_BANDS : List (ℚ × ℚ) := [(1, 4), (4, 8), (8, 13), (13, 30)]

/-- Validation scipy.signal.butter applies to digitally normalized critical
frequencies: it raises ValueError unless 0 < Wn < 1 holds for each cutoff. -/
def butterAccepts (lo hi : ℚ) : Bool :=
  decide (0 < lo ∧ lo < 1 ∧ 0 < hi ∧ hi < 1)

/-- Fallible filter-design step of _bandpass_filter (lines 408-417): the clamped
normalized cutoffs are handed to the Butterworth design, which raises when a cutoff
lies outside the open interval (0, 1) — reachable because the high clamp of line 414
can emit exactly 1. -/
def bandpassDesign (low high sfreq : ℚ) : Except String (ℚ × ℚ) :=
  if butterAccepts (bandpassNorms low high sfreq).1 (bandpassNorms low high sfreq).2 then
    .ok (bandpassNorms low high sfreq)
  else .error ("Digital filter critical frequencies must be 0 < Wn < 1")

/-- Raise behaviour of compute_connectivity's band loop (lines 496-500): every coarse
band's data is band-pass filtered, so the filter design runs once per band and an
invalid cutoff pair raises out of the loop, the earliest failing band first. The
epoch input is reduced to its sampling rate, the only datum this design step reads. -/
def connectivityDesigns (sfreq : ℚ) : Except String (List (ℚ × ℚ)) :=
  CONNECTIVITY_BANDS.foldr
    (fun b acc =>
      match bandpassDesign b.1 b.2 sfreq, acc with
      | .ok n, .ok rest => .ok (n :: rest)
      | .error s, _ => .error s
      | _, .error s => .error s)
    (.ok [])

/-- FeatureResult tree assembled by extract_features (lines 1091-1111): per-condition
feature tables plus the condition-agnostic derived metrics. -/
structure FeatureResult (A B C D E F G : Type) where
  band_power_eo : Option A
  band_power_ec : Option A
  connectivity_eo : Option B
  connectivity_ec : Option B
  lzc_eo : Option C
  lzc_ec : Option C
  alpha_peak_eo : Option D
  alpha_peak_ec : Option D
  band_ratios : E
  asymmetry : F
  risk_patterns : G

/-- extract_features (lines 1033-1111). The per-condition sub-computations (band
power, connectivity, LZC, alpha peak) and the derived-metric computations are abstract
parameters: the orchestration claims hold for every value of them. Raises (error) only
when both condition inputs are absent (lines 1047-1053); otherwise each present
condition is processed and the derived metrics are computed from the eyes-closed band
power when available, else from the eyes-open one (lines 1083-1089). -/
def extract_features {Ep A B C D E F G : Type}
    (bp : Ep → A) (conn : Ep → B) (lzc : Ep → C) (ap : Ep → D)
    (ratios : A → E) (asym : A → F) (risk : A → E → F → G) :
    Option Ep → Option Ep → Except String (FeatureResult A B C D E F G)
  | none, none => .error ("At least one of epochs_eo or epochs_ec must be provided")
  | some eo, none =>
    .ok ⟨some (bp eo), none, some (conn eo), none, some (lzc eo), none, some (ap eo), none,
         ratios (bp eo), asym (bp eo), risk (bp eo) (ratios (bp eo)) (asym (bp eo))⟩
  | none, some ec =>
    .ok ⟨none, some (bp ec), none, some (conn ec), none, some (lzc ec), none, some (ap ec),
         ratios (bp ec), asym (bp ec), risk (bp ec) (ratios (bp ec)) (asym (bp ec))⟩
  | some eo, some ec =>
    .ok ⟨some (bp eo), some (bp ec), some (conn eo), some (conn ec), some (lzc eo),
         some (lzc ec), some (ap eo), some (ap ec),
         ratios (bp ec), asym (bp ec), risk (bp ec) (ratios (bp ec)) (asym (bp ec))⟩

/-- extract_features (lines 1033-1111) with fallible per-condition sub-computations:
each of compute_band_power, compute_connectivity, compute_lzc and compute_alpha_peak
may itself raise, and the orchestrator has no try/except, so an exception propagates
out in the order the calls are made (EO block lines 1060-1065 before EC block lines
1074-1079). The derived-metric computations of lines 1087-1089 are pure lookups over
the primary band power and cannot raise once it exists. -/
def extract_features_exc {Ep A B C D E F G : Type}
    (bp : Ep → Except String A) (conn : Ep → Except String B) (lzc : Ep → Except String C)
    (ap : Ep → Except String D) (ratios : A → E) (asym : A → F) (risk : A → E → F → G) :
    Option Ep → Option Ep → Except String (FeatureResult A B C D E F G)
  | none, none => .error ("At least one of epochs_eo or epochs_ec must be provided")
  | some eo, none =>
    match bp eo with
    | .error s => .error s
    | .ok bpEo =>
      match conn eo with
      | .error s => .error s
      | .ok connEo =>
        match lzc eo with
        | .error s => .error s
        | .ok lzcEo =>
          match ap eo with
          | .error s => .error s
          | .ok apEo =>
            .ok ⟨some bpEo, none, some connEo, none, some lzcEo, none, some apEo, none,
                 ratios bpEo, asym bpEo, risk bpEo (ratios bpEo) (asym bpEo)⟩
  | none, some ec =>
    match bp ec with
    | .error s => .error s
    | .ok bpEc =>
      match conn ec with
      | .error s => .error s
      | .ok connEc =>
        match lzc ec with
        | .error s => .error s
        | .ok lzcEc =>
          match ap ec with
          | .error s => .error s
          | .ok apEc =>
            .ok ⟨none, some bpEc, none, some connEc, none, some lzcEc, none, some apEc,
                 ratios bpEc, asym bpEc, risk bpEc (ratios bpEc) (asym bpEc)⟩
  | some eo, some ec =>
    match bp eo with
    | .error s => .error s
    | .ok bpEo =>
      match conn eo with
      | .error s => .error s
      | .ok connEo =>
        match lzc eo with
        | .error s => .error s
        | .ok lzcEo =>
          match ap eo with
          | .error s => .error s
          | .ok apEo =>
            match bp ec with
            | .error s => .error s
            | .ok bpEc =>
              match conn ec with
              | .error s => .error s
              | .ok connEc =>
                match lzc ec with
                | .error s => .error s
                | .ok lzcEc =>
                  match ap ec with
                  | .error s => .error s
                  | .ok apEc =>
                    .ok ⟨some bpEo, some bpEc, some connEo, some connEc, some lzcEo,
                         some lzcEc, some apEo, some apEc,
                         ratios bpEc, asym bpEc, risk bpEc (ratios bpEc) (asym bpEc)⟩

/-- Sum of a list divided elementwise: helper for the relative-power identity. -/
theorem sum_map_div (l : List ℚ) (T : ℚ) :
    (l.map (fun a => a / T)).sum = l.sum / T := by
  induction l with
  | nil => simp
  | cons x xs ih => simp [ih, add_div]

/-- C1. For every channel of compute_band_power whose total absolute power over the 8
fine bands is positive, the relative values over the 8 bands sum to exactly 1 (hence
within 1e-6 of 1); for every channel whose total absolute power is 0, every band's
relative value is 0 and no division is attempted. -/
theorem band_power_relative_sum (freqs psd : List ℚ) :
    (0 < totalPower freqs psd →
      ((channelBandPower freqs psd).map Prod.snd).sum = 1) ∧
    (totalPower freqs psd = 0 →
      ∀ r ∈ (channelBandPower freqs psd).map Prod.snd, r = 0) := by
  constructor
  · intro hT
    have hmap : (channelBandPower freqs psd).map Prod.snd
        = (BANDS.map (fun b => bandAbsolute freqs psd b.1 b.2)).map
            (fun a => a / totalPower freqs psd) := by
      simp [channelBandPower, List.map_map, Function.comp_def, hT]
    rw [hmap, sum_map_div]
    exact div_self (ne_of_gt hT)
  · intro hT r hr
    have hmap : (channelBandPower freqs psd).map Prod.snd
        = (BANDS.map (fun b => bandAbsolute freqs psd b.1 b.2)).map
            (fun _ => (0 : ℚ)) := by
      simp [channelBandPower, List.map_map, Function.comp_def, hT]
    rw [hmap] at hr
    obtain ⟨a, -, h0⟩ := List.mem_map.mp hr
    exact h0.symm

/-- Witness for C1 at concrete inputs: a two-point PSD with all power in the delta
band has positive total and unit relative sum; the empty PSD has zero total and
all-zero relatives. -/
theorem band_power_relative_sum_witness :
    (0 < totalPower [2, 3] [1, 1] ∧
      ((channelBandPower [2, 3] [1, 1]).map Prod.snd).sum = 1) ∧
    (totalPower [] [] = 0 ∧
      ∀ r ∈ (channelBandPower [] []).map Prod.snd, r = 0) := by
  have h1 : 0 < totalPower [2, 3] [1, 1] := by
    norm_num [totalPower, BANDS, bandAbsolute, trapzPairs, List.zip, List.filter]
  have h2 : totalPower [] [] = 0 := by
    norm_num [totalPower, BANDS, bandAbsolute, trapzPairs, List.zip, List.filter]
  exact ⟨⟨h1, (band_power_relative_sum [2, 3] [1, 1]).1 h1⟩,
         ⟨h2, (band_power_relative_sum [] []).2 h2⟩⟩

/-- Invariant preservation through List.foldl: helper for the imperative loops. -/
theorem foldlPres {α β : Type} (P : α → Prop) (f : α → β → α) :
    ∀ (l : List β) (a : α), (∀ b ∈ l, ∀ x, P x → P (f x b)) → P a → P (l.foldl f a) := by
  intro l
  induction l with
  | nil => intro a _ ha; exact ha
  | cons x xs ih =>
    intro a hstep ha
    exact ih (f a x) (fun b hb => hstep b (List.mem_cons_of_mem x hb))
      (hstep x (List.mem_cons_self x xs) a ha)

/-- A value of the shape guarded-then-clipped is always inside [0, 1]. -/
theorem guardClip_bounds (num den : ℚ) :
    0 ≤ (if den < eps10 then 0 else npClip (num / den) 0 1) ∧
    (if den < eps10 then 0 else npClip (num / den) 0 1) ≤ 1 := by
  split
  · norm_num
  · exact ⟨le_min (le_max_right _ _) (by norm_num), min_le_right _ _⟩

/-- The wPLI value is always inside [0, 1]: it is either the guarded 0 or a value
clipped into [0, 1]. -/
theorem computeWpli_bounds (sig1 sig2 : List (List (ℚ × ℚ))) :
    0 ≤ computeWpli sig1 sig2 ∧ computeWpli sig1 sig2 ≤ 1 := by
  unfold computeWpli
  exact guardClip_bounds _ _

/-- Every invariant holding for the zero matrix and preserved by a mirrored pair
write below the diagonal holds for the built connectivity matrix. -/
theorem connMatrix_inv (n : ℕ) (sigs : ℕ → List (List (ℚ × ℚ))) (P : Mat → Prop)
    (h0 : P zeroMat)
    (hstep : ∀ (M : Mat) (i j : ℕ), i < j →
      P M → P (matUpdate (matUpdate M i j (computeWpli (sigs i) (sigs j))) j i
                (computeWpli (sigs i) (sigs j)))) :
    P (connMatrix n sigs) := by
  rw [connMatrix]
  refine foldlPres P _ (List.range n) zeroMat ?_ h0
  intro i _ M hM
  refine foldlPres P _ (List.range n) M ?_ hM
  intro j _ N hN
  by_cases hij : i < j
  · simp only [if_pos hij]
    exact hstep N i j hij hN
  · simp only [if_neg hij]
    exact hN

/-- C2. Every connectivity matrix produced by the compute_connectivity pair loop is
exactly symmetric and every entry (in particular every off-diagonal entry) lies in
the closed interval [0, 1], for every channel count and every family of per-channel
analytic signals. -/
theorem connectivity_symmetric_bounded (n : ℕ) (sigs : ℕ → List (List (ℚ × ℚ)))
    (i j : ℕ) :
    connMatrix n sigs i j = connMatrix n sigs j i ∧
    0 ≤ connMatrix n sigs i j ∧ connMatrix n sigs i j ≤ 1 := by
  have hsym : ∀ a b, connMatrix n sigs a b = connMatrix n sigs b a := by
    refine connMatrix_inv n sigs (fun M => ∀ a b, M a b = M b a) (fun a b => rfl) ?_
    intro M p q hpq hM a b
    have hne : p ≠ q := ne_of_lt hpq
    simp only [matUpdate]
    split_ifs <;> first | rfl | exact hM a b | tauto
  have hbd : ∀ a b, 0 ≤ connMatrix n sigs a b ∧ connMatrix n sigs a b ≤ 1 := by
    refine connMatrix_inv n sigs (fun M => ∀ a b, 0 ≤ M a b ∧ M a b ≤ 1)
      (fun a b => by norm_num [zeroMat]) ?_
    intro M p q hpq hM a b
    simp only [matUpdate]
    split_ifs <;> first | exact computeWpli_bounds (sigs p) (sigs q) | exact hM a b
  exact ⟨hsym i j, hbd i j⟩

/-- C9. Every diagonal entry of a built connectivity matrix is exactly 0: the matrix
starts as np.zeros and the pair loop only ever writes entries (i, j) with i ≠ j. -/
theorem connectivity_diagonal_zero (n : ℕ) (sigs : ℕ → List (List (ℚ × ℚ))) (i : ℕ) :
    connMatrix n sigs i i = 0 := by
  have hd : ∀ a, connMatrix n sigs a a = 0 := by
    refine connMatrix_inv n sigs (fun M => ∀ a, M a a = 0) (fun a => rfl) ?_
    intro M p q hpq hM a
    have hne : p ≠ q := ne_of_lt hpq
    simp only [matUpdate]
    split_ifs with h1 h2 <;> first | exact hM a | omega
  exact hd i

/-- A maximum fold over a list starting from a seed lands on the seed or in the list. -/
theorem foldMax_mem (ts : List (ℚ × ℚ × ℚ)) :
    ∀ t : ℚ × ℚ × ℚ,
      ts.foldl (fun best x => if best.2.2 < x.2.2 then x else best) t ∈ t :: ts := by
  induction ts with
  | nil => intro t; simp
  | cons x xs ih =>
    intro t
    rw [List.foldl_cons]
    rcases List.mem_cons.mp (ih (if t.2.2 < x.2.2 then x else t)) with h3 | h3
    · rw [h3]
      split
      · simp
      · simp
    · exact List.mem_cons_of_mem _ (List.mem_cons_of_mem _ h3)

/-- The argmax triple of a nonempty list is one of its elements. -/
theorem argmaxTriple_mem (l : List (ℚ × ℚ × ℚ)) (h : l ≠ []) : argmaxTriple l ∈ l := by
  match l with
  | [] => exact absurd rfl h
  | t :: ts => exact foldMax_mem ts t

/-- Membership in the alpha window yields the frequency bounds and that the middle
component is one of the original PSD values. -/
theorem alphaWindow_mem (freqs psd res : List ℚ) (t : ℚ × ℚ × ℚ)
    (h : t ∈ alphaWindow freqs psd res) : (8 ≤ t.1 ∧ t.1 ≤ 12) ∧ t.2.1 ∈ psd := by
  rw [alphaWindow, List.mem_filter] at h
  obtain ⟨hz, hp⟩ := h
  refine ⟨by simpa using hp, ?_⟩
  have h1 : t.1 ∈ freqs ∧ t.2 ∈ psd.zip res := List.of_mem_zip hz
  exact (List.of_mem_zip h1.2).1

/-- C4. Per-channel alpha-peak policy of compute_alpha_peak: a failed 1/f fit or a
window with no positive residual yields exactly the (0, 0) sentinel; otherwise the
reported peak frequency lies in [8, 12] and the reported peak power is the original
(non-residual) PSD value paired with that frequency, which is nonnegative whenever the
PSD is; and the per-channel loop always emits one entry per channel, never aborting. -/
theorem alpha_peak_policy :
    (∀ freqs psd : List ℚ, alphaPeakChannel freqs psd none = (0, 0)) ∧
    (∀ freqs psd res : List ℚ,
      (∀ t ∈ alphaWindow freqs psd res, t.2.2 ≤ 0) →
      alphaPeakChannel freqs psd (some res) = (0, 0)) ∧
    (∀ freqs psd res : List ℚ,
      (∃ t ∈ alphaWindow freqs psd res, 0 < t.2.2) →
      (∀ x ∈ psd, 0 ≤ x) →
      ∃ t ∈ alphaWindow freqs psd res,
        alphaPeakChannel freqs psd (some res) = (t.1, t.2.1) ∧
        8 ≤ t.1 ∧ t.1 ≤ 12 ∧ t.2.1 ∈ psd ∧ 0 ≤ t.2.1) ∧
    (∀ chans, (computeAlphaPeak chans).length = chans.length) := by
  refine ⟨fun freqs psd => rfl, ?_, ?_, fun chans => by simp [computeAlphaPeak]⟩
  · intro freqs psd res hall
    rw [alphaPeakChannel]
    rw [if_pos]
    rw [List.all_eq_true]
    intro t ht
    exact decide_eq_true (hall t ht)
  · intro freqs psd res hex hpsd
    obtain ⟨t0, ht0, hpos⟩ := hex
    have hne : alphaWindow freqs psd res ≠ [] := List.ne_nil_of_mem ht0
    have hmem := argmaxTriple_mem (alphaWindow freqs psd res) hne
    have hwin := alphaWindow_mem freqs psd res _ hmem
    refine ⟨argmaxTriple (alphaWindow freqs psd res), hmem, ?_, hwin.1.1, hwin.1.2,
      hwin.2, hpsd _ hwin.2⟩
    rw [alphaPeakChannel]
    rw [if_neg]
    rw [List.all_eq_true]
    intro hcon
    exact absurd (of_decide_eq_true (hcon t0 ht0)) (not_le.mpr hpos)

/-- Witness for C4 at concrete inputs: an all-nonpositive residual hits the sentinel;
a residual peaking at 10 Hz reports frequency 10 and the original PSD value 7 there. -/
theorem alpha_peak_policy_witness :
    alphaPeakChannel [9, 10] [5, 7] (some [-1, -1]) = (0, 0) ∧
    (∃ t ∈ alphaWindow [9, 10] [5, 7] [1, 2],
      alphaPeakChannel [9, 10] [5, 7] (some [1, 2]) = (t.1, t.2.1) ∧
      8 ≤ t.1 ∧ t.1 ≤ 12 ∧ t.2.1 ∈ [5, 7] ∧ 0 ≤ t.2.1) := by
  constructor
  · exact alpha_peak_policy.2.1 [9, 10] [5, 7] [-1, -1] (by decide)
  · exact alpha_peak_policy.2.2.1 [9, 10] [5, 7] [1, 2] (by decide) (by decide)

/-- Length of an insertion step. -/
theorem length_insertSorted (x : ℚ) (l : List ℚ) :
    (insertSorted x l).length = l.length + 1 := by
  induction l with
  | nil => rfl
  | cons y ys ih =>
    simp only [insertSorted]
    split
    · simp
    · simp [ih]

/-- Elements of an insertion step are the inserted element or old elements. -/
theorem mem_insertSorted (a x : ℚ) (l : List ℚ) (h : a ∈ insertSorted x l) :
    a = x ∨ a ∈ l := by
  induction l with
  | nil =>
    simp only [insertSorted, List.mem_singleton] at h
    exact Or.inl h
  | cons y ys ih =>
    simp only [insertSorted] at h
    split at h
    · simpa using h
    · rcases List.mem_cons.mp h with h1 | h1
      · exact Or.inr (by simp [h1])
      · rcases ih h1 with h2 | h2
        · exact Or.inl h2
        · exact Or.inr (by simp [h2])

/-- Sorting preserves length. -/
theorem length_sortList (l : List ℚ) : (sortList l).length = l.length := by
  induction l with
  | nil => rfl
  | cons x xs ih => simp [sortList, length_insertSorted] at *; omega

/-- Sorting produces only elements of the input. -/
theorem mem_sortList (a : ℚ) (l : List ℚ) (h : a ∈ sortList l) : a ∈ l := by
  induction l with
  | nil => simp [sortList] at h
  | cons x xs ih =>
    rcases mem_insertSorted a x (sortList xs) h with h1 | h1
    · simp [h1]
    · simp [ih h1]

/-- The median of a nonempty constant list is its constant value. -/
theorem npMedian_const (s : List ℚ) (c : ℚ) (h : ∀ x ∈ s, x = c) (hne : s ≠ []) :
    npMedian s = c := by
  have hlen : (sortList s).length = s.length := length_sortList s
  have hpos : 0 < s.length := List.length_pos.mpr hne
  have hget : ∀ i : ℕ, i < s.length → (sortList s).getD i 0 = c := by
    intro i hi
    have hi2 : i < (sortList s).length := by rw [hlen]; exact hi
    rw [List.getD_eq_getElem (sortList s) 0 hi2]
    exact h _ (mem_sortList _ s (List.getElem_mem hi2))
  rw [npMedian]
  split
  · exact hget _ (by omega)
  · rw [hget _ (by omega), hget _ (by omega)]
    ring

/-- Binarizing a nonempty constant signal yields the all-zero symbol sequence: no
sample exceeds the median. -/
theorem binarize_const (s : List ℚ) (c : ℚ) (h : ∀ x ∈ s, x = c) (hne : s ≠ []) :
    binarize s = List.replicate s.length false := by
  rw [binarize]
  refine List.eq_replicate_iff.mpr ⟨by simp, ?_⟩
  intro b hb
  obtain ⟨x, hx, hbx⟩ := List.mem_map.mp hb
  rw [← hbx, npMedian_const s c h hne, h x hx]
  simp

/-- An initial run of one constant list inside a longer one. -/
theorem leadsList_replicate (k m : ℕ) (h : k ≤ m) :
    leadsList (List.replicate k false) (List.replicate m false) = true := by
  induction k generalizing m with
  | zero => rw [List.replicate_zero]; rfl
  | succ n ih =>
    match m with
    | 0 => omega
    | m + 1 =>
      rw [List.replicate_succ, List.replicate_succ, leadsList]
      simp [ih m (by omega)]

/-- A leading run is in particular an occurrence. -/
theorem occursIn_of_leads (p s : List Bool) (h : leadsList p s = true) :
    occursIn p s = true := by
  rw [occursIn.eq_def, h]
  simp

/-- On an all-zero sequence the LZ76 loop, once past the first pattern (ind ≥ 1),
always finds the current window in the prefix and finishes with exactly one more
pattern from the trailing fragment. -/
theorem lz76Loop_replicate (n : ℕ) :
    ∀ (fuel ind inc compl : ℕ), n + 1 ≤ fuel + (ind + inc) → 1 ≤ ind → ind < n →
      1 ≤ inc → lz76Loop (List.replicate n false) ind inc compl = compl + 1 := by
  intro fuel
  induction fuel with
  | zero =>
    intro ind inc compl hf h1 h2 h3
    rw [lz76Loop]
    have hgt : ¬(ind + inc ≤ (List.replicate n false).length) := by
      rw [List.length_replicate]; omega
    rw [dif_neg hgt, List.length_replicate, if_pos h2]
  | succ fuel ih =>
    intro ind inc compl hf h1 h2 h3
    by_cases hle : ind + inc ≤ n
    · rw [lz76Loop]
      have hle2 : ind + inc ≤ (List.replicate n false).length := by
        rw [List.length_replicate]; exact hle
      rw [dif_pos hle2]
      have hsub : ((List.replicate n false).drop ind).take inc
          = List.replicate inc false := by
        rw [List.drop_replicate, List.take_replicate]
        congr 1
        omega
      have hpre : (List.replicate n false).take (ind + inc - 1)
          = List.replicate (ind + inc - 1) false := by
        rw [List.take_replicate]
        congr 1
        omega
      rw [hsub, hpre,
        occursIn_of_leads _ _ (leadsList_replicate inc (ind + inc - 1) (by omega))]
      rw [if_pos rfl]
      exact ih ind (inc + 1) compl (by omega) h1 h2 (by omega)
    · rw [lz76Loop]
      have hgt : ¬(ind + inc ≤ (List.replicate n false).length) := by
        rw [List.length_replicate]; omega
      rw [dif_neg hgt, List.length_replicate, if_pos h2]

/-- The LZ76 loop never returns less than its running count. -/
theorem lz76Loop_ge (s : List Bool) :
    ∀ (fuel ind inc compl : ℕ), s.length + 1 ≤ fuel + (ind + inc) →
      compl ≤ lz76Loop s ind inc compl := by
  intro fuel
  induction fuel with
  | zero =>
    intro ind inc compl hf
    rw [lz76Loop, dif_neg (by omega)]
    split <;> omega
  | succ fuel ih =>
    intro ind inc compl hf
    by_cases hle : ind + inc ≤ s.length
    · rw [lz76Loop, dif_pos hle]
      split
      · exact ih ind (inc + 1) compl (by omega)
      · have := ih (ind + inc) 1 (compl + 1) (by omega)
        omega
    · rw [lz76Loop, dif_neg hle]
      split <;> omega

/-- While the scan position is still inside the sequence, the LZ76 loop returns at
least one more than its running count (the trailing fragment always counts). -/
theorem lz76Loop_ge_one (s : List Bool) :
    ∀ (fuel ind inc compl : ℕ), s.length + 1 ≤ fuel + (ind + inc) → ind < s.length →
      compl + 1 ≤ lz76Loop s ind inc compl := by
  intro fuel
  induction fuel with
  | zero =>
    intro ind inc compl hf hind
    rw [lz76Loop, dif_neg (by omega), if_pos hind]
  | succ fuel ih =>
    intro ind inc compl hf hind
    by_cases hle : ind + inc ≤ s.length
    · rw [lz76Loop, dif_pos hle]
      split
      · exact ih ind (inc + 1) compl (by omega) hind
      · have := lz76Loop_ge s (fuel + 1) (ind + inc) 1 (compl + 1) (by omega)
        omega
    · rw [lz76Loop, dif_neg hle, if_pos hind]

/-- C7. On a constant (zero-variance) signal of length at least 2 the LZ76 parse
count is exactly 2, and 2 is the minimum the algorithm can return on any binary
sequence of that length, so the constant signal attains the minimum. -/
theorem lzc_constant_minimal (s : List ℚ) (c : ℚ) (hconst : ∀ x ∈ s, x = c)
    (hlen : 2 ≤ s.length) :
    lempelZivComplexity s = 2 ∧
    ∀ b : List Bool, b.length = s.length → lempelZivComplexity s ≤ lz76 b := by
  have hne : s ≠ [] := by
    intro h
    rw [h] at hlen
    simp at hlen
  have hbin : binarize s = List.replicate s.length false := binarize_const s c hconst hne
  have hval : lempelZivComplexity s = 2 := by
    rw [lempelZivComplexity, hbin, lz76, lz76Loop]
    have hle : 0 + 1 ≤ (List.replicate s.length false).length := by
      rw [List.length_replicate]; omega
    rw [dif_pos hle]
    have hsub : ((List.replicate s.length false).drop 0).take 1 = [false] := by
      rw [List.drop_zero, List.take_replicate]
      have hm : min 1 s.length = 1 := by omega
      rw [hm]
      rfl
    have hpre : (List.replicate s.length false).take (0 + 1 - 1) = ([] : List Bool) := by
      simp
    rw [hsub, hpre, show occursIn [false] [] = false from rfl, if_neg (by simp)]
    show lz76Loop (List.replicate s.length false) 1 1 1 = 2
    rw [lz76Loop_replicate s.length s.length 1 1 1 (by omega) le_rfl (by omega) le_rfl]
  refine ⟨hval, ?_⟩
  intro b hb
  rw [hval]
  cases b with
  | nil => simp at hb; omega
  | cons x xs =>
    cases xs with
    | nil => simp at hb; omega
    | cons y t =>
      rw [lz76, lz76Loop]
      have hle : 0 + 1 ≤ (x :: y :: t).length := by simp
      rw [dif_pos hle]
      have hsub : (((x :: y :: t).drop 0).take 1) = [x] := rfl
      have hpre : ((x :: y :: t).take (0 + 1 - 1)) = ([] : List Bool) := rfl
      rw [hsub, hpre, show occursIn [x] [] = false from rfl, if_neg (by simp)]
      show 2 ≤ lz76Loop (x :: y :: t) 1 1 1
      have h2 := lz76Loop_ge_one (x :: y :: t) (x :: y :: t).length 1 1 1
        (by omega) (by simp)
      omega

/-- Witness for C7 at concrete inputs: the constant signal (3, 3, 3) parses into
exactly 2 patterns, no more than the binary sequence 101 of the same length. -/
theorem lzc_constant_minimal_witness :
    lempelZivComplexity [3, 3, 3] = 2 ∧
    lempelZivComplexity [3, 3, 3] ≤ lz76 [true, false, true] := by
  have h := lzc_constant_minimal [3, 3, 3] 3 (by decide) (by decide)
  exact ⟨h.1, h.2 [true, false, true] (by decide)⟩

/-- At sampling rate 26 Hz the beta coarse band (13, 30) produces normalized cutoffs
(0.99, 1.0): the high cutoff sits exactly at Nyquist, the Butterworth validation
rejects it, and compute_connectivity's band loop raises. -/
theorem connectivityDesigns_raises_at_26 : ∃ s, connectivityDesigns 26 = .error s := by
  have ha1 : butterAccepts (bandpassNorms 1 4 26).1 (bandpassNorms 1 4 26).2 = true := by
    norm_num [butterAccepts, bandpassNorms, min_def, max_def]
  have ha2 : butterAccepts (bandpassNorms 4 8 26).1 (bandpassNorms 4 8 26).2 = true := by
    norm_num [butterAccepts, bandpassNorms, min_def, max_def]
  have ha3 : butterAccepts (bandpassNorms 8 13 26).1 (bandpassNorms 8 13 26).2 = true := by
    norm_num [butterAccepts, bandpassNorms, min_def, max_def]
  have ha4 : butterAccepts (bandpassNorms 13 30 26).1 (bandpassNorms 13 30 26).2
      = false := by
    norm_num [butterAccepts, bandpassNorms, min_def, max_def]
  have hd1 : bandpassDesign 1 4 26 = .ok (bandpassNorms 1 4 26) := by
    rw [bandpassDesign, if_pos ha1]
  have hd2 : bandpassDesign 4 8 26 = .ok (bandpassNorms 4 8 26) := by
    rw [bandpassDesign, if_pos ha2]
  have hd3 : bandpassDesign 8 13 26 = .ok (bandpassNorms 8 13 26) := by
    rw [bandpassDesign, if_pos ha3]
  have hd4 : bandpassDesign 13 30 26
      = .error ("Digital filter critical frequencies must be 0 < Wn < 1") := by
    rw [bandpassDesign, if_neg (by simp [ha4])]
  simp [connectivityDesigns, CONNECTIVITY_BANDS, hd1, hd2, hd3, hd4]

/-- C5 counterexample. With only the eyes-open condition present, at the in-contract
sampling rate 26 Hz, the connectivity sub-computation reaches the beta-band (13, 30)
filter design whose normalized cutoffs (0.99, 1.0) violate the Butterworth
precondition 0 < Wn < 1, and with no try/except around it the error propagates out of
the orchestrator: the program raises although a condition input is present, refuting
the direction of the claim that a present condition always yields a result without
raising. The sub-computations that do not raise on this input are stubbed total. -/
theorem extract_features_raises_with_input_present :
    (some (26 : ℚ)).isSome = true ∧
    ∃ s, extract_features_exc (fun _ : ℚ => Except.ok ()) connectivityDesigns
        (fun _ : ℚ => Except.ok ()) (fun _ : ℚ => Except.ok ())
        (fun _ : Unit => ()) (fun _ : Unit => ()) (fun _ _ _ => ())
        (some 26) none = .error s := by
  obtain ⟨s, hs⟩ := connectivityDesigns_raises_at_26
  exact ⟨rfl, s, by simp [extract_features_exc, hs]⟩

/-- C5 (amended). extract_features raises the InputAbsent error whenever both
condition inputs are absent; but a present condition only guarantees a complete
result when every per-condition sub-computation itself succeeds — a sub-computation
that raises (as compute_connectivity's filter design does at sampling rates where a
coarse-band edge reaches Nyquist, e.g. 26 Hz) propagates its error out of
extract_features even though a condition is present. -/
theorem extract_features_error_policy {Ep A B C D E F G : Type}
    (bp : Ep → Except String A) (conn : Ep → Except String B) (lzc : Ep → Except String C)
    (ap : Ep → Except String D) (ratios : A → E) (asym : A → F) (risk : A → E → F → G) :
    (∃ s, extract_features_exc bp conn lzc ap ratios asym risk none none = .error s) ∧
    (∀ eo ec : Option Ep, (eo.isSome ∨ ec.isSome) →
      (∀ e, eo = some e →
        (∃ a, bp e = .ok a) ∧ (∃ b, conn e = .ok b) ∧ (∃ c, lzc e = .ok c) ∧
        (∃ d, ap e = .ok d)) →
      (∀ e, ec = some e →
        (∃ a, bp e = .ok a) ∧ (∃ b, conn e = .ok b) ∧ (∃ c, lzc e = .ok c) ∧
        (∃ d, ap e = .ok d)) →
      ∃ r, extract_features_exc bp conn lzc ap ratios asym risk eo ec = .ok r) := by
  constructor
  · exact ⟨_, rfl⟩
  · intro eo ec hsome heo hec
    cases eo with
    | none =>
      cases ec with
      | none => simp at hsome
      | some c =>
        obtain ⟨⟨a, ha⟩, ⟨b, hb⟩, ⟨cv, hc⟩, ⟨d, hd⟩⟩ := hec c rfl
        simp [extract_features_exc, ha, hb, hc, hd]
    | some e =>
      cases ec with
      | none =>
        obtain ⟨⟨a, ha⟩, ⟨b, hb⟩, ⟨cv, hc⟩, ⟨d, hd⟩⟩ := heo e rfl
        simp [extract_features_exc, ha, hb, hc, hd]
      | some c =>
        obtain ⟨⟨a, ha⟩, ⟨b, hb⟩, ⟨cv, hc⟩, ⟨d, hd⟩⟩ := heo e rfl
        obtain ⟨⟨a2, ha2⟩, ⟨b2, hb2⟩, ⟨cv2, hc2⟩, ⟨d2, hd2⟩⟩ := hec c rfl
        simp [extract_features_exc, ha, hb, hc, hd, ha2, hb2, hc2, hd2]

/-- Witness for the amended C5 at concrete inputs: with both conditions absent the
call errors, and with an eyes-open input whose sub-computations all succeed it
returns a result. -/
theorem extract_features_error_policy_witness :
    (∃ s, extract_features_exc (fun _ : ℚ => Except.ok ()) (fun _ : ℚ => Except.ok ())
        (fun _ : ℚ => Except.ok ()) (fun _ : ℚ => Except.ok ())
        (fun _ : Unit => ()) (fun _ : Unit => ()) (fun _ _ _ => ())
        none none = .error s) ∧
    ((some (0 : ℚ)).isSome ∨ (none : Option ℚ).isSome) ∧
    (∃ r, extract_features_exc (fun _ : ℚ => Except.ok ()) (fun _ : ℚ => Except.ok ())
        (fun _ : ℚ => Except.ok ()) (fun _ : ℚ => Except.ok ())
        (fun _ : Unit => ()) (fun _ : Unit => ()) (fun _ _ _ => ())
        (some 0) none = .ok r) := by
  refine ⟨(extract_features_error_policy (fun _ : ℚ => Except.ok ())
    (fun _ : ℚ => Except.ok ()) (fun _ : ℚ => Except.ok ()) (fun _ : ℚ => Except.ok ())
    (fun _ : Unit => ()) (fun _ : Unit => ()) (fun _ _ _ => ())).1, Or.inl rfl, ?_⟩
  exact (extract_features_error_policy (fun _ : ℚ => Except.ok ())
    (fun _ : ℚ => Except.ok ()) (fun _ : ℚ => Except.ok ()) (fun _ : ℚ => Except.ok ())
    (fun _ : Unit => ()) (fun _ : Unit => ()) (fun _ _ _ => ())).2 (some 0) none
    (Or.inl rfl)
    (fun _ _ => ⟨⟨(), rfl⟩, ⟨(), rfl⟩, ⟨(), rfl⟩, ⟨(), rfl⟩⟩)
    (fun _ he => Option.noConfusion he)

/-- C6. The condition-agnostic derived metrics (band_ratios, asymmetry, risk_patterns)
come from the eyes-closed band power whenever the eyes-closed input is present, and
from the eyes-open band power otherwise; in particular an eyes-open-only call returns
a complete result with eyes-closed-keyed fields none and the derived metrics computed
from the eyes-open power. -/
theorem extract_features_primary_choice {Ep A B C D E F G : Type}
    (bp : Ep → A) (conn : Ep → B) (lzc : Ep → C) (ap : Ep → D)
    (ratios : A → E) (asym : A → F) (risk : A → E → F → G) :
    (∀ (eo : Option Ep) (c : Ep),
      extract_features bp conn lzc ap ratios asym risk eo (some c) =
        .ok ⟨eo.map bp, some (bp c), eo.map conn, some (conn c), eo.map lzc, some (lzc c),
             eo.map ap, some (ap c),
             ratios (bp c), asym (bp c), risk (bp c) (ratios (bp c)) (asym (bp c))⟩) ∧
    (∀ e : Ep,
      extract_features bp conn lzc ap ratios asym risk (some e) none =
        .ok ⟨some (bp e), none, some (conn e), none, some (lzc e), none, some (ap e), none,
             ratios (bp e), asym (bp e), risk (bp e) (ratios (bp e)) (asym (bp e))⟩) := by
  refine ⟨fun eo c => ?_, fun e => rfl⟩
  cases eo <;> rfl

/-- C8. The asymmetry index is antisymmetric under exchanging the left and right
powers (the zero cases negate to zero), and is 0 whenever either side is absent from
the table or has nonpositive power. -/
theorem asymmetry_antisymmetric :
    (∀ l r : Option ℚ, asymIndex l r = -asymIndex r l) ∧
    (∀ l r : Option ℚ,
      (l = none ∨ r = none ∨ (∃ x, l = some x ∧ x ≤ 0) ∨ (∃ x, r = some x ∧ x ≤ 0)) →
      asymIndex l r = 0) := by
  constructor
  · intro l r
    cases l with
    | none => cases r <;> simp [asymIndex]
    | some lv =>
      cases r with
      | none => simp [asymIndex]
      | some rv =>
        by_cases h : 0 < lv ∧ 0 < rv
        · rw [asymIndex, if_pos h, asymIndex, if_pos ⟨h.2, h.1⟩]
          ring
        · rw [asymIndex, if_neg h, asymIndex, if_neg (fun hc => h ⟨hc.2, hc.1⟩)]
          simp
  · intro l r hcase
    rcases hcase with h | h | ⟨x, hx, hx0⟩ | ⟨x, hx, hx0⟩
    · simp [h, asymIndex]
    · cases l <;> simp [h, asymIndex]
    · subst hx
      cases r with
      | none => simp [asymIndex]
      | some rv =>
        rw [asymIndex, if_neg]
        intro hc
        exact absurd hx0 (not_le.mpr hc.1)
    · subst hx
      cases l with
      | none => simp [asymIndex]
      | some lv =>
        rw [asymIndex, if_neg]
        intro hc
        exact absurd hx0 (not_le.mpr hc.2)

/-- Witness for C8 at a concrete input: a nonpositive left power yields index 0. -/
theorem asymmetry_antisymmetric_witness :
    asymIndex (some (-1)) (some 2) = 0 :=
  asymmetry_antisymmetric.2 (some (-1)) (some 2)
    (Or.inr (Or.inr (Or.inl ⟨-1, rfl, by norm_num⟩)))

/-- C10 (amended). The low normalized cutoff always lies in [0.001, 0.99] and is
always strictly below the high one, but the high normalized cutoff is only bounded
by 1 in general: the cap at 0.99 holds exactly when the clamped low cutoff is at most
0.98, and the Butterworth design can receive a cutoff exactly at Nyquist otherwise. -/
theorem bandpass_cutoff_range (low high sfreq : ℚ) (_hs : 0 < sfreq) :
    0.001 ≤ (bandpassNorms low high sfreq).1 ∧
    (bandpassNorms low high sfreq).1 ≤ 0.99 ∧
    (bandpassNorms low high sfreq).1 < (bandpassNorms low high sfreq).2 ∧
    (bandpassNorms low high sfreq).2 ≤ 1 ∧
    ((bandpassNorms low high sfreq).1 ≤ 0.98 → (bandpassNorms low high sfreq).2 ≤ 0.99) := by
  have hlow1 : (0.001 : ℚ) ≤ (bandpassNorms low high sfreq).1 := le_max_left _ _
  have hlow2 : (bandpassNorms low high sfreq).1 ≤ 0.99 := by
    rw [bandpassNorms]
    exact max_le (by norm_num) (min_le_right _ _)
  refine ⟨hlow1, hlow2, ?_, ?_, ?_⟩
  · calc (bandpassNorms low high sfreq).1
        < (bandpassNorms low high sfreq).1 + 0.01 := by norm_num
      _ ≤ (bandpassNorms low high sfreq).2 := le_max_left _ _
  · rw [bandpassNorms]
    refine max_le ?_ ?_
    · have := hlow2
      rw [bandpassNorms] at this
      linarith
    · calc min (high / (sfreq / 2)) 0.99 ≤ 0.99 := min_le_right _ _
        _ ≤ 1 := by norm_num
  · intro hlo
    rw [bandpassNorms]
    refine max_le ?_ (min_le_right _ _)
    rw [bandpassNorms] at hlo
    linarith

/-- Witness for C10 at a concrete input: the delta connectivity band at 250 Hz. -/
theorem bandpass_cutoff_range_witness :
    (0 : ℚ) < 250 ∧ (bandpassNorms 1 4 250).1 < (bandpassNorms 1 4 250).2 :=
  ⟨by norm_num, (bandpass_cutoff_range 1 4 250 (by norm_num)).2.2.1⟩

/-- C10 counterexample. For the coarse beta band (13, 30) at sampling rate 26 Hz the
high normalized cutoff handed to the Butterworth design equals exactly 1, a cutoff at
Nyquist, refuting high_norm ≤ 0.99: the low cutoff clamps to 0.99 and
max(0.99 + 0.01, min(30/13, 0.99)) = 1. -/
theorem bandpass_cutoff_at_nyquist :
    (bandpassNorms 13 30 26).2 = 1 ∧ ¬((bandpassNorms 13 30 26).2 ≤ 0.99) := by
  have h : (bandpassNorms 13 30 26).2 = 1 := by
    rw [bandpassNorms]
    norm_num [min_def, max_def]
  exact ⟨h, by rw [h]; norm_num⟩

/-- Identity-preserving folds stay at their start value. -/
theorem foldlFix {α β : Type} (f : α → β → α) (a : α) :
    ∀ l : List β, (∀ x ∈ l, f a x = a) → l.foldl f a = a := by
  intro l
  induction l with
  | nil => intro _; rfl
  | cons x xs ih =>
    intro h
    rw [List.foldl_cons, h x (List.mem_cons_self x xs)]
    exact ih (fun y hy => h y (List.mem_cons_of_mem x hy))

/-- One in-range Floyd-Warshall relaxation preserves the lower-bound invariant. -/
theorem fwUpdate_pres (n : ℕ) (c : ℚ) (d : Mat) (k i j : ℕ) (hc : 0 ≤ c)
    (hk : k < n) (hi : i < n) (hj : j < n) (h : distLB n c d) :
    distLB n c (fwUpdate d k i j) := by
  obtain ⟨h0, hlb⟩ := h
  rw [fwUpdate]
  split
  · constructor
    · intro a b ha hb
      rw [matUpdate]
      split
      · exact add_nonneg (h0 i k hi hk) (h0 k j hk hj)
      · exact h0 a b ha hb
    · intro a b ha hb hab
      rw [matUpdate]
      split
      case isTrue habe =>
        have hij : i ≠ j := by
          rw [← habe.1, ← habe.2]
          exact hab
        rcases eq_or_ne k i with hk1 | hk1
        · rw [hk1]
          have h1 := h0 i i hi hi
          have h2 := hlb i j hi hj hij
          linarith
        · rcases eq_or_ne k j with hk2 | hk2
          · rw [hk2]
            have h1 := hlb i j hi hj hij
            have h2 := h0 j j hj hj
            linarith
          · have h1 := hlb i k hi hk (Ne.symm hk1)
            have h2 := hlb k j hk hj hk2
            linarith
      case isFalse habe => exact hlb a b ha hb hab
  · exact ⟨h0, hlb⟩

/-- The Floyd-Warshall triple loop preserves the lower-bound invariant. -/
theorem floydWarshall_pres (n : ℕ) (c : ℚ) (d0 : Mat) (hc : 0 ≤ c)
    (h : distLB n c d0) : distLB n c (floydWarshall n d0) := by
  rw [floydWarshall]
  refine foldlPres (distLB n c) _ (List.range n) d0 ?_ h
  intro k hk d hd
  refine foldlPres (distLB n c) _ (List.range n) d ?_ hd
  intro i hi d2 hd2
  refine foldlPres (distLB n c) _ (List.range n) d2 ?_ hd2
  intro j hj d3 hd3
  exact fwUpdate_pres n c d3 k i j hc (List.mem_range.mp hk) (List.mem_range.mp hi)
    (List.mem_range.mp hj) hd3

/-- The initial regularized distances satisfy the invariant with c = 1 / (1 + 1e-10)
whenever the weights lie in [0, 1]. -/
theorem initDistance_lb (n : ℕ) (M : Mat)
    (hM : ∀ i j, i < n → j < n → 0 ≤ M i j ∧ M i j ≤ 1) :
    distLB n (1 / (1 + eps10)) (initDistance M) := by
  have heps : (0 : ℚ) < eps10 := by norm_num [eps10]
  constructor
  · intro i j hi hj
    rw [initDistance]
    split
    · exact le_rfl
    · have h1 := (hM i j hi hj).1
      have hpos : 0 < M i j + eps10 := by linarith
      exact le_of_lt (one_div_pos.mpr hpos)
  · intro i j hi hj hij
    rw [initDistance, if_neg hij]
    have h1 := hM i j hi hj
    have hpos : 0 < M i j + eps10 := by linarith [h1.1]
    have hle : M i j + eps10 ≤ 1 + eps10 := by linarith [h1.2]
    exact one_div_le_one_div_of_le hpos hle

/-- C3 (amended). For every matrix with all entries in [0, 1] the global efficiency
is nonnegative and at most 1 + 1e-10: the regularizer in the weight-to-distance
inversion lets each inverse shortest path reach up to 1 + 1e-10, so the exact upper
bound 1 of the claim fails by at most 1e-10 and the stated interval must be widened
to [0, 1 + 1e-10]. -/
theorem global_efficiency_range (n : ℕ) (M : Mat)
    (hM : ∀ i j, i < n → j < n → 0 ≤ M i j ∧ M i j ≤ 1) :
    0 ≤ globalEfficiency n M ∧ globalEfficiency n M ≤ 1 + eps10 := by
  have heps : (0 : ℚ) < eps10 := by norm_num [eps10]
  have hcpos : (0 : ℚ) < 1 / (1 + eps10) := by norm_num [eps10]
  obtain ⟨h0, hmin⟩ := floydWarshall_pres n (1 / (1 + eps10)) (initDistance M)
    (le_of_lt hcpos) (initDistance_lb n M hM)
  set D := floydWarshall n (initDistance M) with hD
  have hinv : ∀ i j, i < n → j < n →
      0 ≤ invDist D i j ∧ invDist D i j ≤ 1 + eps10 := by
    intro i j hi hj
    rw [invDist]
    split
    · exact ⟨le_rfl, by linarith⟩
    case isFalse hij =>
      have hd := hmin i j hi hj hij
      have hdpos : 0 < D i j := lt_of_lt_of_le hcpos hd
      refine ⟨le_of_lt (one_div_pos.mpr hdpos), ?_⟩
      have hdiv := one_div_le_one_div_of_le hcpos hd
      rwa [one_div_one_div] at hdiv
  have hrow : ∀ i, i < n →
      (∑ j in Finset.range n, invDist D i j) ≤ ((n - 1 : ℕ) : ℚ) * (1 + eps10) := by
    intro i hi
    have hisplit : ∑ j in Finset.range n, invDist D i j
        = invDist D i i + ∑ j in (Finset.range n).erase i, invDist D i j := by
      rw [Finset.add_sum_erase]
      exact Finset.mem_range.mpr hi
    have hdiag : invDist D i i = 0 := by rw [invDist]; simp
    have hbound := Finset.sum_le_card_nsmul ((Finset.range n).erase i)
      (fun j => invDist D i j) (1 + eps10)
      (fun j hj => (hinv i j hi (Finset.mem_range.mp (Finset.mem_of_mem_erase hj))).2)
    have hcard : ((Finset.range n).erase i).card = n - 1 := by
      rw [Finset.card_erase_of_mem (Finset.mem_range.mpr hi), Finset.card_range]
    rw [hisplit, hdiag, zero_add]
    calc ∑ j in (Finset.range n).erase i, invDist D i j
        ≤ ((Finset.range n).erase i).card • (1 + eps10) := hbound
      _ = ((n - 1 : ℕ) : ℚ) * (1 + eps10) := by rw [hcard, nsmul_eq_mul]
  have hsum_le : sumMat n (invDist D) ≤ ((n * (n - 1) : ℕ) : ℚ) * (1 + eps10) := by
    rw [sumMat]
    calc ∑ i in Finset.range n, ∑ j in Finset.range n, invDist D i j
        ≤ ∑ _i in Finset.range n, ((n - 1 : ℕ) : ℚ) * (1 + eps10) :=
          Finset.sum_le_sum (fun i hi => hrow i (Finset.mem_range.mp hi))
      _ = (n : ℚ) * (((n - 1 : ℕ) : ℚ) * (1 + eps10)) := by
          rw [Finset.sum_const, Finset.card_range, nsmul_eq_mul]
      _ = ((n * (n - 1) : ℕ) : ℚ) * (1 + eps10) := by push_cast; ring
  have hsum_ge : 0 ≤ sumMat n (invDist D) := by
    rw [sumMat]
    refine Finset.sum_nonneg (fun i hi => Finset.sum_nonneg (fun j hj => ?_))
    exact (hinv i j (Finset.mem_range.mp hi) (Finset.mem_range.mp hj)).1
  constructor
  · rw [globalEfficiency, ← hD]
    exact div_nonneg hsum_ge (Nat.cast_nonneg _)
  · rw [globalEfficiency, ← hD]
    rcases Nat.eq_zero_or_pos (n * (n - 1)) with hz | hp
    · rw [hz]
      norm_num
      linarith
    · rw [div_le_iff₀ (by exact_mod_cast hp)]
      calc sumMat n (invDist D) ≤ ((n * (n - 1) : ℕ) : ℚ) * (1 + eps10) := hsum_le
        _ = (1 + eps10) * ((n * (n - 1) : ℕ) : ℚ) := by ring

/-- Witness for the amended C3 at a concrete input: the 2-channel all-ones
off-diagonal matrix. -/
theorem global_efficiency_range_witness :
    0 ≤ globalEfficiency 2 onesOffDiag ∧ globalEfficiency 2 onesOffDiag ≤ 1 + eps10 :=
  global_efficiency_range 2 onesOffDiag (fun i j _ _ => by
    rw [onesOffDiag]
    split <;> norm_num)

/-- Entries of the regularized distance fixed point are nonnegative. -/
theorem onesDist_nonneg (a b : ℕ) : 0 ≤ onesDist a b := by
  rw [onesDist]
  split
  · exact le_rfl
  · norm_num [eps10]

/-- Every Floyd-Warshall relaxation leaves the regularized distance matrix of
onesOffDiag unchanged: no two-hop path beats a direct edge there. -/
theorem fwUpdate_onesDist (k i j : ℕ) : fwUpdate onesDist k i j = onesDist := by
  rw [fwUpdate, if_neg]
  rw [not_lt]
  by_cases hij : i = j
  · have hC : onesDist i j = 0 := by rw [onesDist, if_pos hij]
    rw [hC]
    exact add_nonneg (onesDist_nonneg i k) (onesDist_nonneg k j)
  · have hC : onesDist i j = 1 / (1 + eps10) := by rw [onesDist, if_neg hij]
    rcases eq_or_ne i k with hik | hik
    · have hA : onesDist i k = 0 := by rw [onesDist, if_pos hik]
      have hB : onesDist k j = 1 / (1 + eps10) := by
        rw [onesDist, if_neg]
        rw [← hik]
        exact hij
      rw [hA, hB, hC, zero_add]
    · rcases eq_or_ne k j with hkj | hkj
      · have hA : onesDist i k = 1 / (1 + eps10) := by
          rw [onesDist, if_neg]
          rw [hkj]
          exact hij
        have hB : onesDist k j = 0 := by rw [onesDist, if_pos hkj]
        rw [hA, hB, hC, add_zero]
      · have hA : onesDist i k = 1 / (1 + eps10) := by rw [onesDist, if_neg hik]
        have hB : onesDist k j = 1 / (1 + eps10) := by rw [onesDist, if_neg hkj]
        rw [hA, hB, hC]
        norm_num [eps10]

/-- The initial distances of onesOffDiag are exactly onesDist. -/
theorem initDistance_ones : initDistance onesOffDiag = onesDist := by
  funext i j
  by_cases h : i = j <;> simp [initDistance, onesDist, onesOffDiag, h]

/-- Floyd-Warshall fixes onesDist. -/
theorem floydWarshall_onesDist (n : ℕ) : floydWarshall n onesDist = onesDist := by
  rw [floydWarshall]
  refine foldlFix _ _ (List.range n) ?_
  intro k _
  refine foldlFix _ _ (List.range n) ?_
  intro i _
  refine foldlFix _ _ (List.range n) ?_
  intro j _
  exact fwUpdate_onesDist k i j

/-- The global efficiency of the 2-channel all-ones off-diagonal matrix is exactly
1 + 1e-10. -/
theorem globalEfficiency_onesOffDiag : globalEfficiency 2 onesOffDiag = 1 + eps10 := by
  rw [globalEfficiency, initDistance_ones, floydWarshall_onesDist]
  have hinv : invDist onesDist = fun i j => if i = j then 0 else 1 + eps10 := by
    funext i j
    by_cases h : i = j <;> simp [invDist, onesDist, h, one_div_one_div]
  rw [hinv, sumMat]
  simp only [Finset.sum_range_succ, Finset.sum_range_zero]
  norm_num

/-- C3 counterexample. The 2-channel all-ones off-diagonal matrix has every entry in
[0, 1] and zero diagonal, yet its global efficiency is 1 + 1e-10 > 1: the 1e-10
regularizer makes every inverse shortest path slightly exceed 1, refuting
global_efficiency ≤ 1 as claimed. -/
theorem global_efficiency_exceeds_one :
    (∀ i j, 0 ≤ onesOffDiag i j ∧ onesOffDiag i j ≤ 1) ∧
    (∀ i, onesOffDiag i i = 0) ∧
    ¬(globalEfficiency 2 onesOffDiag ≤ 1) := by
  refine ⟨?_, ?_, ?_⟩
  · intro i j
    rw [onesOffDiag]
    split <;> norm_num
  · intro i
    rw [onesOffDiag, if_pos rfl]
  · rw [globalEfficiency_onesOffDiag]
    norm_num [eps10]

end EEGFeatures
